import Mathlib

/-!
# Verification of the Binance order-book reconciliation core (`binance.py`)

Shallow embedding of the order-book core: `PriceLevel`, `Levels` (a
`SortedDict`-backed price → level map, modelled as an association list kept
sorted strictly ascending by price key), `Snapshot`, `PartialUpdate`, and
`BinanceOrderBook` with its `update` state machine and ranked queries.

Prices and quantities are Python `float`s in the source; the core performs no
floating-point arithmetic on them — only comparison against `0.0`, equality
and ordering of keys — so they are modelled as exact rationals `ℚ`.

`SortedDict` operations are modelled with Python semantics:
`peekitem(j)` supports negative indexing and raises `IndexError` out of range
(modelled as `Option`); `islice(start, stop)` resolves its bounds like Python
slices, clamping to the resident range.
-/

/-- Source `PriceLevel`: an immutable (price, quantity) pair (`binance.py` lines 10-13). -/
structure PriceLevel where
  price : ℚ
  quantity : ℚ
deriving DecidableEq, Repr

/-- Wire shape handed to `PriceLevel.from_object`: a Python `dict` (modelled as
an association list of string keys to already-`float()`-converted values), a
Python `list` of values, or any other object (the `TypeError` branch). -/
inductive PriceLevelObj where
  | dict (fields : List (String × ℚ))
  | list (elems : List ℚ)
  | other
deriving DecidableEq, Repr

/-- Python `dict` key access: first binding wins, `KeyError` is `none`. -/
def dictGet (fields : List (String × ℚ)) (key : String) : Option ℚ :=
  match fields.find? (fun kv => kv.1 = key) with
  | some kv => some kv.2
  | none => none

/-- Source `PriceLevel.from_object` (`binance.py` lines 15-21): a `dict` is read via
its `"price"` and `"qty"` keys, a `list` via indices 0 and 1; anything else
raises `TypeError` (`none`). -/
def PriceLevel.from_object : PriceLevelObj → Option PriceLevel
  | .dict fields =>
    match dictGet fields "price", dictGet fields "qty" with
    | some p, some q => some ⟨p, q⟩
    | _, _ => none
  | .list elems =>
    match elems.get? 0, elems.get? 1 with
    | some p, some q => some ⟨p, q⟩
    | _, _ => none
  | .other => none

/-- Source `Levels.levels : SortedDict[float, PriceLevel]`, modelled as an
association list of (price key, level) pairs kept sorted ascending by key. -/
abbrev Levels := List (ℚ × PriceLevel)

namespace Levels

/-- Lookup by price key (`self.levels[p]` read access). -/
def lookupLevel (p : ℚ) : Levels → Option PriceLevel
  | [] => none
  | (q, m) :: rest => if q = p then some m else lookupLevel p rest

/-- Source `self.levels[price] = level`: insert-or-replace at the sorted key position. -/
def insertLevel (p : ℚ) (l : PriceLevel) : Levels → Levels
  | [] => [(p, l)]
  | (q, m) :: rest =>
    if p < q then (p, l) :: (q, m) :: rest
    else if p = q then (p, l) :: rest
    else (q, m) :: insertLevel p l rest

/-- Source `self.levels.pop(price, None)`: remove the entry at that key if present. -/
def removeLevel (p : ℚ) (L : Levels) : Levels :=
  L.filter (fun e => e.1 ≠ p)

/-- One iteration of the `Levels.merge` loop body (`binance.py` lines 29-33). -/
def mergeOne (L : Levels) (l : PriceLevel) : Levels :=
  if l.quantity = 0 then removeLevel l.price L else insertLevel l.price l L

/-- Source `Levels.merge` (`binance.py` lines 28-33): apply each entry in order. -/
def merge (L : Levels) (entries : List PriceLevel) : Levels :=
  entries.foldl mergeOne L

/-- Source `len(self.levels)`: resident entry count. -/
def size (L : Levels) : ℕ := L.length

/-- The resident levels in ascending key order (the `SortedDict` value view). -/
def values (L : Levels) : List PriceLevel := L.map Prod.snd

/-- Python list indexing semantics: `xs[j]` with negative-index wrap-around,
`IndexError` out of range. -/
def pyIndex (k : ℕ) (j : ℤ) : Option ℕ :=
  if j < 0 then
    (if 0 ≤ j + k then some (j + k).toNat else none)
  else
    (if j < k then some j.toNat else none)

/-- Source `SortedDict.peekitem(j)`: the j-th (key, value) item, Python indexing. -/
def peekitem (L : Levels) (j : ℤ) : Option (ℚ × PriceLevel) :=
  (pyIndex L.length j).bind (fun n => L.get? n)

/-- Source `Levels.max(i) = self.levels.peekitem(-i)[1]` (`binance.py` lines 35-36). -/
def max (L : Levels) (i : ℤ) : Option PriceLevel :=
  (L.peekitem (-i)).map Prod.snd

/-- Source `Levels.min(i) = self.levels.peekitem(i - 1)[1]` (`binance.py` lines 41-42). -/
def min (L : Levels) (i : ℤ) : Option PriceLevel :=
  (L.peekitem (i - 1)).map Prod.snd

/-- Python slice-bound resolution for step 1 (`slice(j, ...).indices(k)`):
negative bounds count from the end, then clamp to `[0, k]`. -/
def pyBound (k : ℕ) (j : ℤ) : ℕ :=
  (Min.min (Max.max (if j < 0 then j + k else j) 0) (k : ℤ)).toNat

/-- Source `Levels.max_slice(i, reverse) = (self.levels[p] for p in
self.levels.islice(-i, None, reverse))` (`binance.py` lines 38-39): the
values from resolved start index `-i` to the end, optionally reversed. -/
def max_slice (L : Levels) (i : ℤ) (reverse : Bool) : List PriceLevel :=
  let seg := (L.drop (pyBound L.length (-i))).map Prod.snd
  if reverse then seg.reverse else seg

/-- Source `Levels.min_slice(i, reverse) = (self.levels[p] for p in
self.levels.islice(None, i, reverse))` (`binance.py` lines 44-45). -/
def min_slice (L : Levels) (i : ℤ) (reverse : Bool) : List PriceLevel :=
  let seg := (L.take (pyBound L.length i)).map Prod.snd
  if reverse then seg.reverse else seg

/-- The net effect of one `merge` entry list on the binding at price `q`,
starting from binding `acc`: the last instruction at `q` wins. -/
def mergeLookup (acc : Option PriceLevel) (q : ℚ) (es : List PriceLevel) :
    Option PriceLevel :=
  es.foldl
    (fun a l => if l.price = q then (if l.quantity = 0 then none else some l) else a)
    acc

/-- Well-formedness maintained by `SortedDict`: keys strictly ascending
(hence duplicate-free). -/
def WF (L : Levels) : Prop :=
  L.Pairwise (fun a b => a.1 < b.1)

instance : DecidablePred WF := fun L =>
  List.instDecidablePairwise L

/-- Key-value coherence: each level is stored under its own price as key
(`self.levels[level.price] = level`). -/
def Coherent (L : Levels) : Prop :=
  ∀ e ∈ L, e.2.price = e.1

instance : DecidablePred Coherent := fun L =>
  List.decidableBAll _ L

/-- No resident entry is a deletion marker (`quantity == 0`). -/
def NoZero (L : Levels) : Prop :=
  ∀ e ∈ L, e.2.quantity ≠ 0

instance : DecidablePred NoZero := fun L =>
  List.decidableBAll _ L

end Levels

/-- Source `PartialUpdate` (`binance.py` lines 51-56). -/
structure PartialUpdate where
  bids : List PriceLevel
  asks : List PriceLevel
  first_update_id : ℤ
  last_update_id : ℤ
deriving DecidableEq, Repr

/-- Source `Snapshot` (`binance.py` lines 76-80). -/
structure Snapshot where
  bids : List PriceLevel
  asks : List PriceLevel
  last_update_id : ℤ
deriving DecidableEq, Repr

/-- Source `BinanceOrderBook` state (`binance.py` lines 97-103). -/
structure BinanceOrderBook where
  bids : Levels
  asks : Levels
  last_update_id : ℤ
deriving DecidableEq, Repr

/-- Outcome of `BinanceOrderBook.update`: `True` (applied), `False` (skipped),
or the raised `RuntimeWarning` carrying the received first id and the
expected next id (`binance.py` lines 106-112). -/
inductive UpdateResult where
  | applied
  | skipped
  | gap (received expected : ℤ)
deriving DecidableEq, Repr

/-- Whether the result is the gap signal (the `RuntimeWarning` branch). -/
def UpdateResult.isGap : UpdateResult → Bool
  | .gap _ _ => true
  | _ => false

namespace BinanceOrderBook

/-- Source `BinanceOrderBook.__init__` (`binance.py` lines 98-103): merge the
snapshot sides into fresh `Levels` and take its `last_update_id`. -/
def init (snapshot : Snapshot) : BinanceOrderBook :=
  { bids := Levels.merge [] snapshot.bids
    asks := Levels.merge [] snapshot.asks
    last_update_id := snapshot.last_update_id }

/-- Source `BinanceOrderBook.update` (`binance.py` lines 105-116): skip stale
updates, signal a gap when `first_update_id > last_update_id + 1`, otherwise
merge both sides and advance `last_update_id`. Returns the outcome paired
with the post-call state. -/
def update (b : BinanceOrderBook) (u : PartialUpdate) :
    UpdateResult × BinanceOrderBook :=
  if u.last_update_id < b.last_update_id then
    (.skipped, b)
  else if u.first_update_id > b.last_update_id + 1 then
    (.gap u.first_update_id (b.last_update_id + 1), b)
  else
    (.applied,
      { bids := b.bids.merge u.bids
        asks := b.asks.merge u.asks
        last_update_id := u.last_update_id })

/-- Apply a sequence of updates in order, keeping only the state. -/
def applyAll (b : BinanceOrderBook) (us : List PartialUpdate) :
    BinanceOrderBook :=
  us.foldl (fun s u => (s.update u).2) b

/-- Source `best_bid(i) = self.bids.max(i)` (`binance.py` lines 118-119). -/
def best_bid (b : BinanceOrderBook) (i : ℤ) : Option PriceLevel :=
  b.bids.max i

/-- Source `best_bids(n) = self.bids.max_slice(n, reverse=True)` (lines 121-122). -/
def best_bids (b : BinanceOrderBook) (n : ℤ) : List PriceLevel :=
  b.bids.max_slice n true

/-- Source `best_ask(i) = self.asks.min(i)` (`binance.py` lines 124-125). -/
def best_ask (b : BinanceOrderBook) (i : ℤ) : Option PriceLevel :=
  b.asks.min i

/-- Source `best_asks(n) = self.asks.min_slice(n)` (`binance.py` lines 127-128). -/
def best_asks (b : BinanceOrderBook) (n : ℤ) : List PriceLevel :=
  b.asks.min_slice n false

/-- The representation invariant of a book's two sides: sorted strictly
ascending by key, each level stored under its own price, and no resident
deletion markers. -/
def GoodBook (b : BinanceOrderBook) : Prop :=
  Levels.WF b.bids ∧ Levels.Coherent b.bids ∧ Levels.NoZero b.bids ∧
    Levels.WF b.asks ∧ Levels.Coherent b.asks ∧ Levels.NoZero b.asks

instance : DecidablePred GoodBook := fun b => by
  rw [GoodBook]
  infer_instance

end BinanceOrderBook

/-! ## Lemmas about `Levels` operations -/

namespace Levels

theorem lookupLevel_insertLevel (p q : ℚ) (l : PriceLevel) (L : Levels) :
    lookupLevel q (insertLevel p l L) =
      if p = q then some l else lookupLevel q L := by
  induction L with
  | nil => simp [insertLevel, lookupLevel]
  | cons e rest ih =>
    obtain ⟨r, m⟩ := e
    simp only [insertLevel]
    by_cases h1 : p < r
    · simp only [if_pos h1, lookupLevel]
    · simp only [if_neg h1]
      by_cases h2 : p = r
      · simp only [if_pos h2, lookupLevel, h2]
        by_cases h3 : r = q
        · simp [h3]
        · simp [h3]
      · simp only [if_neg h2, lookupLevel]
        by_cases h3 : r = q
        · have hpq : ¬ p = q := fun h => h2 (h.trans h3.symm)
          simp [h3, hpq]
        · simp [h3, ih]

theorem lookupLevel_eq_none_of_not_mem (p : ℚ) (L : Levels)
    (h : ∀ e ∈ L, e.1 ≠ p) : lookupLevel p L = none := by
  induction L with
  | nil => rfl
  | cons e rest ih =>
    have he : e.1 ≠ p := h e (List.mem_cons_self e rest)
    simp only [lookupLevel, if_neg he]
    exact ih (fun x hx => h x (List.mem_cons_of_mem e hx))

theorem lookupLevel_removeLevel (p q : ℚ) (L : Levels) :
    lookupLevel q (removeLevel p L) =
      if p = q then none else lookupLevel q L := by
  induction L with
  | nil => simp [removeLevel, lookupLevel]
  | cons e rest ih =>
    obtain ⟨r, m⟩ := e
    by_cases h1 : r = p
    · have hd : removeLevel p ((r, m) :: rest) = removeLevel p rest := by
        simp [removeLevel, List.filter_cons, h1]
      rw [hd, ih]
      by_cases h2 : p = q
      · simp [h2]
      · have hr : ¬ r = q := fun h => h2 (h1.symm.trans h)
        simp [lookupLevel, h2, hr]
    · have hd : removeLevel p ((r, m) :: rest) = (r, m) :: removeLevel p rest := by
        simp [removeLevel, List.filter_cons, h1]
      rw [hd]
      simp only [lookupLevel]
      by_cases h3 : r = q
      · have hpq : ¬ p = q := fun h => h1 (h3.trans h.symm)
        simp [h3, hpq]
      · simp [h3, ih]

theorem lookupLevel_mergeOne (q : ℚ) (L : Levels) (l : PriceLevel) :
    lookupLevel q (mergeOne L l) =
      if l.price = q then (if l.quantity = 0 then none else some l)
      else lookupLevel q L := by
  by_cases hz : l.quantity = 0
  · simp [mergeOne, hz, lookupLevel_removeLevel]
  · simp [mergeOne, hz, lookupLevel_insertLevel]

theorem lookupLevel_merge (q : ℚ) (L : Levels) (es : List PriceLevel) :
    lookupLevel q (merge L es) = mergeLookup (lookupLevel q L) q es := by
  induction es generalizing L with
  | nil => rfl
  | cons e rest ih =>
    simp only [merge, mergeLookup, List.foldl_cons] at ih ⊢
    rw [ih, lookupLevel_mergeOne]

theorem mergeLookup_idem (a : Option PriceLevel) (q : ℚ)
    (es : List PriceLevel) :
    mergeLookup (mergeLookup a q es) q es = mergeLookup a q es := by
  induction es using List.reverseRecOn with
  | nil => rfl
  | append_singleton rest e ih =>
    simp only [mergeLookup, List.foldl_concat] at ih ⊢
    by_cases h : e.price = q
    · simp [h]
    · simp only [if_neg h]
      exact ih

theorem mem_insertLevel (p : ℚ) (l : PriceLevel) (L : Levels)
    (e : ℚ × PriceLevel) (he : e ∈ insertLevel p l L) :
    e = (p, l) ∨ e ∈ L := by
  induction L with
  | nil =>
    simp only [insertLevel, List.mem_singleton] at he
    exact Or.inl he
  | cons f rest ih =>
    obtain ⟨r, m⟩ := f
    simp only [insertLevel] at he
    by_cases h1 : p < r
    · simp only [if_pos h1, List.mem_cons] at he
      rcases he with h | h | h
      · exact Or.inl h
      · exact Or.inr (by simp [h])
      · exact Or.inr (List.mem_cons_of_mem _ h)
    · by_cases h2 : p = r
      · simp only [if_neg h1, if_pos h2, List.mem_cons] at he
        rcases he with h | h
        · exact Or.inl h
        · exact Or.inr (List.mem_cons_of_mem _ h)
      · simp only [if_neg h1, if_neg h2, List.mem_cons] at he
        rcases he with h | h
        · exact Or.inr (by simp [h])
        · rcases ih h with h' | h'
          · exact Or.inl h'
          · exact Or.inr (List.mem_cons_of_mem _ h')

theorem WF_insertLevel (p : ℚ) (l : PriceLevel) (L : Levels) (h : WF L) :
    WF (insertLevel p l L) := by
  induction L with
  | nil => simp [insertLevel, WF]
  | cons f rest ih =>
    obtain ⟨r, m⟩ := f
    rw [WF, List.pairwise_cons] at h
    obtain ⟨hr, hrest⟩ := h
    simp only [insertLevel]
    by_cases h1 : p < r
    · rw [if_pos h1, WF, List.pairwise_cons]
      refine ⟨?_, ?_⟩
      · intro e he
        rcases List.mem_cons.mp he with h' | h'
        · simpa [h'] using h1
        · exact lt_trans h1 (hr e h')
      · rw [WF] at *
        exact List.pairwise_cons.mpr ⟨hr, hrest⟩
    · by_cases h2 : p = r
      · rw [if_neg h1, if_pos h2, WF, List.pairwise_cons]
        exact ⟨fun e he => h2 ▸ hr e he, hrest⟩
      · rw [if_neg h1, if_neg h2, WF, List.pairwise_cons]
        refine ⟨?_, ih hrest⟩
        intro e he
        rcases mem_insertLevel p l rest e he with h' | h'
        · have hrp : r < p := lt_of_le_of_ne (not_lt.mp h1) (fun h => h2 h.symm)
          simpa [h'] using hrp
        · exact hr e h'

theorem WF_removeLevel (p : ℚ) (L : Levels) (h : WF L) :
    WF (removeLevel p L) :=
  List.Pairwise.sublist (List.filter_sublist L) h

theorem WF_mergeOne (L : Levels) (l : PriceLevel) (h : WF L) :
    WF (mergeOne L l) := by
  by_cases hz : l.quantity = 0
  · simpa [mergeOne, hz] using WF_removeLevel l.price L h
  · simpa [mergeOne, hz] using WF_insertLevel l.price l L h

theorem WF_merge (L : Levels) (es : List PriceLevel) (h : WF L) :
    WF (merge L es) := by
  induction es generalizing L with
  | nil => exact h
  | cons e rest ih =>
    simp only [merge, List.foldl_cons] at ih ⊢
    exact ih (mergeOne L e) (WF_mergeOne L e h)

theorem mem_removeLevel (p : ℚ) (L : Levels) (e : ℚ × PriceLevel)
    (he : e ∈ removeLevel p L) : e ∈ L := by
  rw [removeLevel] at he
  exact (List.filter_sublist L).subset he

theorem Coherent_mergeOne (L : Levels) (l : PriceLevel) (h : Coherent L) :
    Coherent (mergeOne L l) := by
  by_cases hz : l.quantity = 0
  · intro e he
    exact h e (mem_removeLevel l.price L e (by simpa [mergeOne, hz] using he))
  · intro e he
    simp only [mergeOne, if_neg hz] at he
    rcases mem_insertLevel l.price l L e he with h' | h'
    · simp [h']
    · exact h e h'

theorem Coherent_merge (L : Levels) (es : List PriceLevel) (h : Coherent L) :
    Coherent (merge L es) := by
  induction es generalizing L with
  | nil => exact h
  | cons e rest ih =>
    simp only [merge, List.foldl_cons] at ih ⊢
    exact ih (mergeOne L e) (Coherent_mergeOne L e h)

theorem NoZero_mergeOne (L : Levels) (l : PriceLevel) (h : NoZero L) :
    NoZero (mergeOne L l) := by
  by_cases hz : l.quantity = 0
  · intro e he
    exact h e (mem_removeLevel l.price L e (by simpa [mergeOne, hz] using he))
  · intro e he
    simp only [mergeOne, if_neg hz] at he
    rcases mem_insertLevel l.price l L e he with h' | h'
    · simpa [h'] using hz
    · exact h e h'

theorem NoZero_merge (L : Levels) (es : List PriceLevel) (h : NoZero L) :
    NoZero (merge L es) := by
  induction es generalizing L with
  | nil => exact h
  | cons e rest ih =>
    simp only [merge, List.foldl_cons] at ih ⊢
    exact ih (mergeOne L e) (NoZero_mergeOne L e h)

theorem lookupLevel_eq_none_iff (p : ℚ) (L : Levels) :
    lookupLevel p L = none ↔ ∀ e ∈ L, e.1 ≠ p := by
  constructor
  · induction L with
    | nil =>
      intro _ e he
      exact absurd he (List.not_mem_nil e)
    | cons f rest ih =>
      obtain ⟨r, m⟩ := f
      intro h e he
      simp only [lookupLevel] at h
      by_cases hr : r = p
      · rw [if_pos hr] at h
        exact absurd h (by simp)
      · rw [if_neg hr] at h
        rcases List.mem_cons.mp he with h' | h'
        · rw [h']
          exact hr
        · exact ih h e h'
  · exact lookupLevel_eq_none_of_not_mem p L

theorem lookupLevel_cons_lt (p q : ℚ) (b : PriceLevel) (t : Levels)
    (hwf : WF ((q, b) :: t)) (hlt : p < q) :
    lookupLevel p ((q, b) :: t) = none := by
  apply lookupLevel_eq_none_of_not_mem
  intro e he
  rcases List.mem_cons.mp he with h' | h'
  · rw [h']
    exact hlt.ne'
  · rw [WF, List.pairwise_cons] at hwf
    exact (lt_trans hlt (hwf.1 e h')).ne'

theorem WF_lookup_ext (L1 : Levels) (h1 : WF L1) (L2 : Levels) (h2 : WF L2)
    (h : ∀ q, lookupLevel q L1 = lookupLevel q L2) : L1 = L2 := by
  induction L1 generalizing L2 with
  | nil =>
    cases L2 with
    | nil => rfl
    | cons f t =>
      obtain ⟨q, b⟩ := f
      have hf := h q
      simp [lookupLevel] at hf
  | cons e t1 ih =>
    obtain ⟨p, a⟩ := e
    cases L2 with
    | nil =>
      have hp := h p
      simp [lookupLevel] at hp
    | cons f t2 =>
      obtain ⟨q, b⟩ := f
      have hpq : p = q := by
        by_contra hne
        rcases lt_or_gt_of_ne hne with hlt | hgt
        · have hn := lookupLevel_cons_lt p q b t2 h2 hlt
          have hp := h p
          rw [hn] at hp
          simp [lookupLevel] at hp
        · have hn := lookupLevel_cons_lt q p a t1 h1 hgt
          have hq := h q
          rw [hn] at hq
          simp [lookupLevel] at hq
      subst hpq
      have hab : a = b := by
        have hp := h p
        simpa [lookupLevel] using hp
      subst hab
      rw [WF, List.pairwise_cons] at h1 h2
      congr 1
      apply ih h1.2 t2 h2.2
      intro r
      by_cases hr : r = p
      · subst hr
        rw [lookupLevel_eq_none_of_not_mem r t1 (fun e he => (h1.1 e he).ne'),
          lookupLevel_eq_none_of_not_mem r t2 (fun e he => (h2.1 e he).ne')]
      · have hx := h r
        have hne : ¬ p = r := fun hh => hr hh.symm
        simpa [lookupLevel, if_neg hne] using hx

theorem drop_values_sorted (L : Levels) (hwf : WF L) (hco : Coherent L)
    (s : ℕ) :
    ((L.drop s).map Prod.snd).Pairwise (fun a b => a.price < b.price) := by
  rw [List.pairwise_map]
  have hsub := List.drop_sublist s L
  have hp : (L.drop s).Pairwise (fun a b => a.1 < b.1) :=
    List.Pairwise.sublist hsub hwf
  refine List.Pairwise.imp_of_mem ?_ hp
  intro a b ha hb hab
  rw [hco a (hsub.subset ha), hco b (hsub.subset hb)]
  exact hab

theorem take_values_sorted (L : Levels) (hwf : WF L) (hco : Coherent L)
    (s : ℕ) :
    ((L.take s).map Prod.snd).Pairwise (fun a b => a.price < b.price) := by
  rw [List.pairwise_map]
  have hsub := List.take_sublist s L
  have hp : (L.take s).Pairwise (fun a b => a.1 < b.1) :=
    List.Pairwise.sublist hsub hwf
  refine List.Pairwise.imp_of_mem ?_ hp
  intro a b ha hb hab
  rw [hco a (hsub.subset ha), hco b (hsub.subset hb)]
  exact hab

theorem max_slice_sorted_desc (L : Levels) (hwf : WF L) (hco : Coherent L)
    (i : ℤ) :
    (max_slice L i true).Pairwise (fun a b => b.price < a.price) := by
  have hrw : max_slice L i true =
      ((L.drop (pyBound L.length (-i))).map Prod.snd).reverse := rfl
  rw [hrw, List.pairwise_reverse]
  exact drop_values_sorted L hwf hco _

theorem min_slice_sorted_asc (L : Levels) (hwf : WF L) (hco : Coherent L)
    (i : ℤ) :
    (min_slice L i false).Pairwise (fun a b => a.price < b.price) := by
  have hrw : min_slice L i false =
      (L.take (pyBound L.length i)).map Prod.snd := rfl
  rw [hrw]
  exact take_values_sorted L hwf hco _

end Levels

namespace BinanceOrderBook

theorem goodBook_init (s : Snapshot) : GoodBook (init s) := by
  rw [GoodBook, init]
  refine ⟨?_, ?_, ?_, ?_, ?_, ?_⟩
  · exact Levels.WF_merge [] s.bids (by simp [Levels.WF])
  · exact Levels.Coherent_merge [] s.bids (by simp [Levels.Coherent])
  · exact Levels.NoZero_merge [] s.bids (by simp [Levels.NoZero])
  · exact Levels.WF_merge [] s.asks (by simp [Levels.WF])
  · exact Levels.Coherent_merge [] s.asks (by simp [Levels.Coherent])
  · exact Levels.NoZero_merge [] s.asks (by simp [Levels.NoZero])

theorem goodBook_update (b : BinanceOrderBook) (u : PartialUpdate)
    (h : GoodBook b) : GoodBook (update b u).2 := by
  rw [update]
  split_ifs with h1 h2
  · exact h
  · exact h
  · obtain ⟨hwb, hcb, hzb, hwa, hca, hza⟩ := h
    exact ⟨Levels.WF_merge _ _ hwb, Levels.Coherent_merge _ _ hcb,
      Levels.NoZero_merge _ _ hzb, Levels.WF_merge _ _ hwa,
      Levels.Coherent_merge _ _ hca, Levels.NoZero_merge _ _ hza⟩

theorem goodBook_applyAll (b : BinanceOrderBook) (us : List PartialUpdate)
    (h : GoodBook b) : GoodBook (applyAll b us) := by
  induction us generalizing b with
  | nil => exact h
  | cons u rest ih =>
    simp only [applyAll, List.foldl_cons] at ih ⊢
    exact ih (update b u).2 (goodBook_update b u h)

end BinanceOrderBook

namespace Levels

theorem NoZero_foldl_merge (ess : List (List PriceLevel)) (L : Levels)
    (h : NoZero L) : NoZero (ess.foldl merge L) := by
  induction ess generalizing L with
  | nil => exact h
  | cons es rest ih =>
    simp only [List.foldl_cons]
    exact ih (merge L es) (NoZero_merge L es h)

theorem Coherent_foldl_merge (ess : List (List PriceLevel)) (L : Levels)
    (h : Coherent L) : Coherent (ess.foldl merge L) := by
  induction ess generalizing L with
  | nil => exact h
  | cons es rest ih =>
    simp only [List.foldl_cons]
    exact ih (merge L es) (Coherent_merge L es h)

theorem pyIndex_eq_none_iff (k : ℕ) (j : ℤ) :
    pyIndex k j = none ↔ ((k : ℤ) ≤ j ∨ j + k < 0) := by
  rw [pyIndex]
  by_cases h1 : j < 0
  · rw [if_pos h1]
    by_cases h2 : 0 ≤ j + k
    · rw [if_pos h2]
      constructor
      · intro hc
        cases hc
      · intro hc
        exfalso
        rcases hc with hc | hc <;> omega
    · rw [if_neg h2]
      constructor
      · intro _
        right
        omega
      · intro _
        rfl
  · rw [if_neg h1]
    by_cases h2 : j < k
    · rw [if_pos h2]
      constructor
      · intro hc
        cases hc
      · intro hc
        exfalso
        rcases hc with hc | hc <;> omega
    · rw [if_neg h2]
      constructor
      · intro _
        left
        omega
      · intro _
        rfl

theorem pyIndex_some_lt (k : ℕ) (j : ℤ) (n : ℕ) (h : pyIndex k j = some n) :
    n < k := by
  rw [pyIndex] at h
  by_cases h1 : j < 0
  · rw [if_pos h1] at h
    by_cases h2 : 0 ≤ j + k
    · rw [if_pos h2] at h
      injection h with h
      omega
    · rw [if_neg h2] at h
      cases h
  · rw [if_neg h1] at h
    by_cases h2 : j < k
    · rw [if_pos h2] at h
      injection h with h
      omega
    · rw [if_neg h2] at h
      cases h

theorem peekitem_eq_none_iff (L : Levels) (j : ℤ) :
    peekitem L j = none ↔ ((L.length : ℤ) ≤ j ∨ j + L.length < 0) := by
  rw [peekitem, ← pyIndex_eq_none_iff L.length j]
  cases hp : pyIndex L.length j with
  | none => simp
  | some n =>
    have hn := pyIndex_some_lt L.length j n hp
    simp only [Option.some_bind]
    rw [List.get?_eq_getElem?, List.getElem?_eq_getElem hn]
    simp

theorem pyBound_neg_big (k : ℕ) (n : ℤ) (h : (k : ℤ) < n) :
    pyBound k (-n) = 0 := by
  rw [pyBound, if_pos (by omega : -n < 0)]
  have h2 : Max.max (-n + (k : ℤ)) 0 = 0 := max_eq_right (by omega)
  rw [h2]
  have h3 : Min.min (0 : ℤ) (k : ℤ) = 0 := min_eq_left (by omega)
  rw [h3]
  rfl

theorem pyBound_pos_big (k : ℕ) (n : ℤ) (h : (k : ℤ) < n) :
    pyBound k n = k := by
  rw [pyBound, if_neg (by omega : ¬ n < 0)]
  have h2 : Max.max n 0 = n := max_eq_left (by omega)
  rw [h2]
  have h3 : Min.min n (k : ℤ) = (k : ℤ) := min_eq_right (by omega)
  rw [h3]
  omega

end Levels

namespace BinanceOrderBook

theorem update_last_le (b : BinanceOrderBook) (u : PartialUpdate) :
    b.last_update_id ≤ ((b.update u).2).last_update_id := by
  rw [update]
  split_ifs with h1 h2
  · exact le_refl _
  · exact le_refl _
  · exact not_lt.mp h1

theorem applyAll_last_le (b : BinanceOrderBook) (us : List PartialUpdate) :
    b.last_update_id ≤ (applyAll b us).last_update_id := by
  induction us generalizing b with
  | nil => exact le_refl _
  | cons u rest ih =>
    simp only [applyAll, List.foldl_cons] at ih ⊢
    exact le_trans (update_last_le b u) (ih (b.update u).2)

end BinanceOrderBook

/-! ## Claim theorems -/

/-- C1: for every book with `last_update_id = U` and every `PartialUpdate u`,
`apply(u)` returns skipped exactly when `u.last_update_id < U`; it signals a
gap exactly when `u.last_update_id ≥ U` and `u.first_update_id > U + 1`;
otherwise (in particular whenever
`u.first_update_id ≤ U + 1 ≤ u.last_update_id + 1`) it returns applied. -/
theorem C1_apply_outcome_trichotomy (b : BinanceOrderBook) (u : PartialUpdate) :
    ((b.update u).1 = .skipped ↔ u.last_update_id < b.last_update_id) ∧
    ((b.update u).1.isGap = true ↔
      (b.last_update_id ≤ u.last_update_id ∧
        b.last_update_id + 1 < u.first_update_id)) ∧
    ((b.update u).1 = .applied ↔
      (b.last_update_id ≤ u.last_update_id ∧
        u.first_update_id ≤ b.last_update_id + 1)) := by
  rw [BinanceOrderBook.update]
  split_ifs with h1 h2
  · refine ⟨by simp [h1], ?_, ?_⟩
    · simp only [UpdateResult.isGap, Bool.false_eq_true, false_iff, not_and]
      intro hle
      omega
    · constructor
      · intro hc
        cases hc
      · intro hc
        exfalso
        omega
  · refine ⟨?_, ?_, ?_⟩
    · constructor
      · intro hc
        cases hc
      · intro hc
        exact absurd hc h1
    · simp only [UpdateResult.isGap, true_iff]
      exact ⟨not_lt.mp h1, h2⟩
    · constructor
      · intro hc
        cases hc
      · intro hc
        omega
  · refine ⟨?_, ?_, by simp; omega⟩
    · constructor
      · intro hc
        cases hc
      · intro hc
        exact absurd hc h1
    · simp only [UpdateResult.isGap, Bool.false_eq_true, false_iff, not_and]
      intro _
      omega

/-- C2: `last_update_id` equals the snapshot's id right after construction,
equals the applied update's `last_update_id` after any apply that returns
applied, and is monotonically non-decreasing over every single apply call and
every sequence of apply calls. -/
theorem C2_last_update_id_tracking :
    (∀ s : Snapshot,
      (BinanceOrderBook.init s).last_update_id = s.last_update_id) ∧
    (∀ (b : BinanceOrderBook) (u : PartialUpdate),
      (b.update u).1 = .applied →
        ((b.update u).2).last_update_id = u.last_update_id) ∧
    (∀ (b : BinanceOrderBook) (u : PartialUpdate),
      b.last_update_id ≤ ((b.update u).2).last_update_id) ∧
    (∀ (b : BinanceOrderBook) (us : List PartialUpdate),
      b.last_update_id ≤ (BinanceOrderBook.applyAll b us).last_update_id) := by
  refine ⟨fun s => rfl, ?_, BinanceOrderBook.update_last_le,
    BinanceOrderBook.applyAll_last_le⟩
  intro b u h
  rw [BinanceOrderBook.update] at h ⊢
  split_ifs at h ⊢
  rfl

/-- C2 witness: a concrete applied call whose post-state id is the update's. -/
theorem C2_last_update_id_tracking_witness :
    ((BinanceOrderBook.mk [] [] 0).update
      (PartialUpdate.mk [] [] 1 1)).2.last_update_id = 1 :=
  C2_last_update_id_tracking.2.1 (BinanceOrderBook.mk [] [] 0)
    (PartialUpdate.mk [] [] 1 1) (by decide)

/-- C3: whenever `apply` returns skipped or signals a gap, the whole book
state (both sides and `last_update_id`) is exactly what it was before. -/
theorem C3_no_mutation_on_skip_or_gap (b : BinanceOrderBook)
    (u : PartialUpdate)
    (h : (b.update u).1 = .skipped ∨ ((b.update u).1).isGap = true) :
    (b.update u).2 = b := by
  rw [BinanceOrderBook.update] at h ⊢
  split_ifs at h ⊢
  · rfl
  · rfl
  · rcases h with h | h
    · cases h
    · simp [UpdateResult.isGap] at h

/-- C3 witness: a concrete skipped call leaves the concrete book unchanged. -/
theorem C3_no_mutation_witness :
    ((BinanceOrderBook.mk [] [] 5).update
      (PartialUpdate.mk [] [] 1 1)).2 = BinanceOrderBook.mk [] [] 5 :=
  C3_no_mutation_on_skip_or_gap (BinanceOrderBook.mk [] [] 5)
    (PartialUpdate.mk [] [] 1 1) (Or.inl (by decide))

/-- C8: a `PriceLevel` decoded from the dict shape `{"price": p, "qty": q}`
and from the 2-element list shape `[p, q]` yield identical internal values,
and any input that is neither a dict nor a list fails construction. -/
theorem C8_dual_shape_decoding (p q : ℚ) :
    PriceLevel.from_object (.dict [("price", p), ("qty", q)]) =
      some (PriceLevel.mk p q) ∧
    PriceLevel.from_object (.list [p, q]) = some (PriceLevel.mk p q) ∧
    PriceLevel.from_object .other = none := by
  refine ⟨?_, rfl, rfl⟩
  rw [PriceLevel.from_object]
  have h1 : dictGet [("price", p), ("qty", q)] "price" = some p := rfl
  have h2 : dictGet [("price", p), ("qty", q)] "qty" = some q := rfl
  rw [h1, h2]

/-- C4: merging the single entry `PriceLevel(p, 0)` is a no-op when no entry
at `p` is resident; otherwise it removes exactly the binding at `p` and no
other; and after any sequence of merges from the empty container no resident
entry has quantity 0. -/
theorem C4_zero_quantity_merge (L : Levels) (p : ℚ) :
    (Levels.lookupLevel p L = none → Levels.merge L [PriceLevel.mk p 0] = L) ∧
    Levels.lookupLevel p (Levels.merge L [PriceLevel.mk p 0]) = none ∧
    (∀ q, q ≠ p →
      Levels.lookupLevel q (Levels.merge L [PriceLevel.mk p 0]) =
        Levels.lookupLevel q L) ∧
    (∀ ess : List (List PriceLevel),
      Levels.NoZero (ess.foldl Levels.merge [])) := by
  have hone : Levels.merge L [PriceLevel.mk p 0] = Levels.removeLevel p L := by
    show Levels.mergeOne L (PriceLevel.mk p 0) = Levels.removeLevel p L
    rw [Levels.mergeOne, if_pos rfl]
  refine ⟨?_, ?_, ?_, ?_⟩
  · intro h
    rw [hone, Levels.removeLevel]
    rw [List.filter_eq_self]
    intro e he
    have := (Levels.lookupLevel_eq_none_iff p L).mp h e he
    simpa using this
  · rw [hone, Levels.lookupLevel_removeLevel, if_pos rfl]
  · intro q hq
    rw [hone, Levels.lookupLevel_removeLevel,
      if_neg (fun hh => hq hh.symm)]
  · intro ess
    exact Levels.NoZero_foldl_merge ess [] (by simp [Levels.NoZero])

/-- C4 witness: concrete instances of the no-op case and the untouched-key
case. -/
theorem C4_zero_quantity_merge_witness :
    Levels.merge [] [PriceLevel.mk 1 0] = ([] : Levels) ∧
    Levels.lookupLevel 2 (Levels.merge [] [PriceLevel.mk 1 0]) =
      Levels.lookupLevel 2 ([] : Levels) :=
  ⟨(C4_zero_quantity_merge [] 1).1 (by decide),
    (C4_zero_quantity_merge [] 1).2.2.1 2 (by decide)⟩

/-- C5: on any book reached from a snapshot by any sequence of applies (hence
after any sequence of merges), `best_bids(n)` yields prices in strictly
descending order and `best_asks(n)` in strictly ascending order, for every
`n` (in particular every `n` up to the resident count). -/
theorem C5_query_order_invariant (s : Snapshot) (us : List PartialUpdate)
    (n : ℤ) :
    ((BinanceOrderBook.applyAll (BinanceOrderBook.init s) us).best_bids
      n).Pairwise (fun a b => b.price < a.price) ∧
    ((BinanceOrderBook.applyAll (BinanceOrderBook.init s) us).best_asks
      n).Pairwise (fun a b => a.price < b.price) := by
  have hg := BinanceOrderBook.goodBook_applyAll _ us
    (BinanceOrderBook.goodBook_init s)
  obtain ⟨hwb, hcb, _, hwa, hca, _⟩ := hg
  exact ⟨Levels.max_slice_sorted_desc _ hwb hcb n,
    Levels.min_slice_sorted_asc _ hwa hca n⟩

/-- C6: when `n` exceeds the resident count of the queried side,
`best_bids(n)` / `best_asks(n)` yield exactly all resident levels of that
side (all of them, in query order, with no error). -/
theorem C6_slice_truncation (b : BinanceOrderBook) (n : ℤ) :
    ((b.bids.size : ℤ) < n →
      b.best_bids n = (Levels.values b.bids).reverse ∧
      (b.best_bids n).length = b.bids.size) ∧
    ((b.asks.size : ℤ) < n →
      b.best_asks n = Levels.values b.asks ∧
      (b.best_asks n).length = b.asks.size) := by
  constructor
  · intro h
    have h0 : Levels.pyBound b.bids.length (-n) = 0 :=
      Levels.pyBound_neg_big _ n h
    have heq : b.best_bids n = (Levels.values b.bids).reverse := by
      show ((b.bids.drop (Levels.pyBound b.bids.length (-n))).map
        Prod.snd).reverse = (Levels.values b.bids).reverse
      rw [h0, List.drop_zero]
      rfl
    refine ⟨heq, ?_⟩
    rw [heq, List.length_reverse, Levels.values, List.length_map]
    rfl
  · intro h
    have h0 : Levels.pyBound b.asks.length n = b.asks.length :=
      Levels.pyBound_pos_big _ n h
    have heq : b.best_asks n = Levels.values b.asks := by
      show (b.asks.take (Levels.pyBound b.asks.length n)).map Prod.snd =
        Levels.values b.asks
      rw [h0, List.take_length]
      rfl
    refine ⟨heq, ?_⟩
    rw [heq, Levels.values, List.length_map]
    rfl

/-- C6 witness: a concrete book with one bid and one ask, queried with
`n = 3`. -/
theorem C6_slice_truncation_witness :
    (BinanceOrderBook.mk [(1, PriceLevel.mk 1 2)] [(4, PriceLevel.mk 4 5)]
        0).best_bids 3 =
      (Levels.values [((1 : ℚ), PriceLevel.mk 1 2)]).reverse ∧
    (BinanceOrderBook.mk [(1, PriceLevel.mk 1 2)] [(4, PriceLevel.mk 4 5)]
        0).best_asks 3 = Levels.values [((4 : ℚ), PriceLevel.mk 4 5)] :=
  ⟨((C6_slice_truncation
      (BinanceOrderBook.mk [(1, PriceLevel.mk 1 2)]
        [(4, PriceLevel.mk 4 5)] 0) 3).1 (by decide)).1,
    ((C6_slice_truncation
      (BinanceOrderBook.mk [(1, PriceLevel.mk 1 2)]
        [(4, PriceLevel.mk 4 5)] 0) 3).2 (by decide)).1⟩

/-- C10: in every `Levels` state reachable by merges from the empty
container, each resident level is stored under its own price as key, so
ordering by key coincides with ordering by the stored levels' prices. -/
theorem C10_key_value_coherence (ess : List (List PriceLevel)) :
    Levels.Coherent (ess.foldl Levels.merge []) ∧
    (ess.foldl Levels.merge ([] : Levels)).map Prod.fst =
      (ess.foldl Levels.merge ([] : Levels)).map (fun e => e.2.price) := by
  have hco : Levels.Coherent (ess.foldl Levels.merge []) :=
    Levels.Coherent_foldl_merge ess [] (by simp [Levels.Coherent])
  refine ⟨hco, ?_⟩
  apply List.map_congr_left
  intro e he
  exact (hco e he).symm

/-- C10 witness: coherence evaluated on a concrete merge sequence. -/
theorem C10_key_value_coherence_witness :
    Levels.Coherent
      (([[PriceLevel.mk 1 2], [PriceLevel.mk 3 4]] :
        List (List PriceLevel)).foldl Levels.merge []) :=
  (C10_key_value_coherence [[PriceLevel.mk 1 2], [PriceLevel.mk 3 4]]).1

theorem Levels.values_reverse_get? (L : Levels) (m : ℕ) (h : m < L.length) :
    ((Levels.values L).reverse).get? m =
      (L.get? (L.length - 1 - m)).map Prod.snd := by
  rw [List.get?_eq_getElem?, List.get?_eq_getElem?]
  rw [List.getElem?_reverse (by rw [Levels.values, List.length_map]; exact h)]
  rw [Levels.values, List.length_map, List.getElem?_map]

theorem Levels.values_get? (L : Levels) (m : ℕ) :
    (Levels.values L).get? m = (L.get? m).map Prod.snd := by
  rw [List.get?_eq_getElem?, List.get?_eq_getElem?, Levels.values,
    List.getElem?_map]

/-- C7 counterexample: the claim states the single-level accessors fail
whenever `i < 1`; but on a one-entry container the code evaluates `i = 0`
through Python index wrap-around (`peekitem(-0)` / `peekitem(-1)`) and
returns an entry instead of failing. -/
theorem C7_counterexample :
    ((0 : ℤ) < 1) ∧
    Levels.max [((1 : ℚ), PriceLevel.mk 1 2)] 0 = some (PriceLevel.mk 1 2) ∧
    Levels.min [((1 : ℚ), PriceLevel.mk 1 2)] 0 = some (PriceLevel.mk 1 2) := by
  decide

/-- C7 (amended): with `k` resident entries, `nth_from_top(i)` and
`nth_from_bottom(i)` fail with an out-of-range condition exactly when
`i > k` or `i ≤ -k` (for `-k < i < 1` Python negative indexing wraps around
instead of failing), and for `1 ≤ i ≤ k` they return the i-th highest
(respectively i-th lowest) resident entry — the i-th element of the value
sequence read from the top (resp. bottom). -/
theorem C7_nth_accessor_range (L : Levels) (i : ℤ) :
    (Levels.max L i = none ↔
      ((L.size : ℤ) < i ∨ i ≤ -(L.size : ℤ))) ∧
    (Levels.min L i = none ↔
      ((L.size : ℤ) < i ∨ i ≤ -(L.size : ℤ))) ∧
    (1 ≤ i → i ≤ (L.size : ℤ) →
      Levels.max L i = ((Levels.values L).reverse).get? (i - 1).toNat ∧
      Levels.min L i = (Levels.values L).get? (i - 1).toNat) := by
  simp only [Levels.size]
  refine ⟨?_, ?_, ?_⟩
  · rw [Levels.max, Option.map_eq_none', Levels.peekitem_eq_none_iff]
    constructor
    · intro hc
      rcases hc with hc | hc
      · right
        omega
      · left
        omega
    · intro hc
      rcases hc with hc | hc
      · right
        omega
      · left
        omega
  · rw [Levels.min, Option.map_eq_none', Levels.peekitem_eq_none_iff]
    constructor
    · intro hc
      rcases hc with hc | hc
      · left
        omega
      · right
        omega
    · intro hc
      rcases hc with hc | hc
      · left
        omega
      · right
        omega
  · intro h1 h2
    constructor
    · have hlt : (-i + (L.length : ℤ)).toNat < L.length := by omega
      have hmax : Levels.max L i =
          (L.get? (-i + (L.length : ℤ)).toNat).map Prod.snd := by
        rw [Levels.max, Levels.peekitem]
        have hidx : Levels.pyIndex L.length (-i) =
            some (-i + (L.length : ℤ)).toNat := by
          rw [Levels.pyIndex, if_pos (by omega), if_pos (by omega)]
        rw [hidx]
        rfl
      rw [hmax, Levels.values_reverse_get? L (i - 1).toNat (by omega)]
      have hidx2 : L.length - 1 - (i - 1).toNat =
          (-i + (L.length : ℤ)).toNat := by omega
      rw [hidx2]
    · have hmin : Levels.min L i =
          (L.get? (i - 1).toNat).map Prod.snd := by
        rw [Levels.min, Levels.peekitem]
        have hidx : Levels.pyIndex L.length (i - 1) =
            some (i - 1).toNat := by
          rw [Levels.pyIndex, if_neg (by omega), if_pos (by omega)]
        rw [hidx]
        rfl
      rw [hmin, Levels.values_get?]

/-- C7 witness: the amended positional clause evaluated on a concrete
two-entry container at `i = 1`. -/
theorem C7_nth_accessor_range_witness :
    Levels.max [((1 : ℚ), PriceLevel.mk 1 2), (3, PriceLevel.mk 3 4)] 1 =
      ((Levels.values
        [((1 : ℚ), PriceLevel.mk 1 2), (3, PriceLevel.mk 3 4)]).reverse).get?
        ((1 : ℤ) - 1).toNat ∧
    Levels.min [((1 : ℚ), PriceLevel.mk 1 2), (3, PriceLevel.mk 3 4)] 1 =
      (Levels.values
        [((1 : ℚ), PriceLevel.mk 1 2), (3, PriceLevel.mk 3 4)]).get?
        ((1 : ℤ) - 1).toNat :=
  (C7_nth_accessor_range
    [((1 : ℚ), PriceLevel.mk 1 2), (3, PriceLevel.mk 3 4)] 1).2.2
    (by decide) (by decide)

/-- C9: `Levels.merge` is idempotent — merging an entry list twice yields the
same resident mapping as merging it once; consequently re-applying a
`PartialUpdate` whose `last_update_id` equals the book's current
`last_update_id` (as after a successful apply of that very update) returns
applied and leaves the book state exactly unchanged. -/
theorem C9_merge_idempotent (L : Levels) (es : List PriceLevel)
    (b : BinanceOrderBook) (u : PartialUpdate) :
    (∀ q, Levels.lookupLevel q (Levels.merge (Levels.merge L es) es) =
      Levels.lookupLevel q (Levels.merge L es)) ∧
    (Levels.WF b.bids → Levels.WF b.asks →
      u.first_update_id ≤ u.last_update_id →
      (b.update u).1 = .applied →
      (((b.update u).2).update u).1 = .applied ∧
        (((b.update u).2).update u).2 = (b.update u).2) := by
  constructor
  · intro q
    simp only [Levels.lookupLevel_merge, Levels.mergeLookup_idem]
  · intro hwb hwa hfl happ
    have h1 : ¬ u.last_update_id < b.last_update_id := by
      intro hlt
      rw [BinanceOrderBook.update, if_pos hlt] at happ
      cases happ
    have h2 : ¬ u.first_update_id > b.last_update_id + 1 := by
      intro hgt
      rw [BinanceOrderBook.update, if_neg h1, if_pos hgt] at happ
      cases happ
    have hb1 : (b.update u).2 =
        BinanceOrderBook.mk (b.bids.merge u.bids) (b.asks.merge u.asks)
          u.last_update_id := by
      rw [BinanceOrderBook.update, if_neg h1, if_neg h2]
    rw [hb1]
    have hup : (BinanceOrderBook.mk (b.bids.merge u.bids)
        (b.asks.merge u.asks) u.last_update_id).update u =
        (.applied,
          BinanceOrderBook.mk ((b.bids.merge u.bids).merge u.bids)
            ((b.asks.merge u.asks).merge u.asks) u.last_update_id) := by
      rw [BinanceOrderBook.update]
      have hc2 : ¬ u.first_update_id > u.last_update_id + 1 := by omega
      rw [if_neg (lt_irrefl u.last_update_id), if_neg hc2]
    rw [hup]
    refine ⟨rfl, ?_⟩
    simp only [BinanceOrderBook.mk.injEq]
    refine ⟨?_, ?_, trivial⟩
    · refine Levels.WF_lookup_ext _
        (Levels.WF_merge _ u.bids (Levels.WF_merge _ u.bids hwb)) _
        (Levels.WF_merge _ u.bids hwb) ?_
      intro q
      simp only [Levels.lookupLevel_merge, Levels.mergeLookup_idem]
    · refine Levels.WF_lookup_ext _
        (Levels.WF_merge _ u.asks (Levels.WF_merge _ u.asks hwa)) _
        (Levels.WF_merge _ u.asks hwa) ?_
      intro q
      simp only [Levels.lookupLevel_merge, Levels.mergeLookup_idem]

/-- C9 witness: a concrete applied update re-applied to the resulting book
is applied again and leaves the book unchanged. -/
theorem C9_merge_idempotent_witness :
    (((BinanceOrderBook.mk [] [] 0).update
      (PartialUpdate.mk [PriceLevel.mk 1 2] [] 1 1)).2.update
        (PartialUpdate.mk [PriceLevel.mk 1 2] [] 1 1)).1 = .applied ∧
    (((BinanceOrderBook.mk [] [] 0).update
      (PartialUpdate.mk [PriceLevel.mk 1 2] [] 1 1)).2.update
        (PartialUpdate.mk [PriceLevel.mk 1 2] [] 1 1)).2 =
      ((BinanceOrderBook.mk [] [] 0).update
        (PartialUpdate.mk [PriceLevel.mk 1 2] [] 1 1)).2 :=
  (C9_merge_idempotent [] [] (BinanceOrderBook.mk [] [] 0)
    (PartialUpdate.mk [PriceLevel.mk 1 2] [] 1 1)).2
    (by decide) (by decide) (by decide) (by decide)
